import Mathlib

/-
  Verification development for the tapa tool
  (Tekton Artifact Performance Analysis).

  The Go source is shallowly embedded here:
  * timestamps (Go time.Time) and durations in seconds (time.Duration /
    float64 via Seconds()) are modelled as integers (integral-second
    instants; Go time instants are integer nanosecond counts, and only
    ordering, subtraction, summation and exact ratio of time values are ever
    used, all of which are scale-invariant); the Go zero time value is 0;
    Before / After / Equal become < / > / =; the float64 percentage
    quotients of the all command are modelled as exact rational division;
  * Go maps (map[string]time.Time, map[string]float64) are modelled as
    association lists with overwrite-in-place insertion (mapPut) and
    first-match lookup (mapGet); iteration order of the model is insertion
    order, a deterministic refinement of Go's unspecified map order;
  * the Go set map[float64]struct\x7b\x7d that mirrors the durations slice is
    modelled by a membership test on the durations list itself (the Go code
    keeps the two in lockstep: an element is in the set iff it is in the
    slice);
  * sort.Float64s is modelled with insertion sort (any sorted permutation;
    the slice contents are pairwise distinct by construction, so every
    correct sorting algorithm returns the same list);
  * the process-wide accumulation maps (prStartTimes, prEndTimes,
    prToDuration, prDurations, and the pod/container analogues) are grouped
    into one KindState record per kind and threaded explicitly; a fresh Go
    process corresponds to KindState.init;
  * file-system ingestion (filepath.Walk + os.ReadFile + json.Unmarshal) is
    modelled by a list of per-file outcomes: a file is unreadable, fails to
    decode, or decodes into a typed item list.
-/

namespace Tapa

/-- Go map lookup m[k]: first entry with the key, if any. -/
def mapGet {α : Type} (m : List (String × α)) (k : String) : Option α :=
  match m with
  | [] => none
  | (k2, v) :: rest => if k2 = k then some v else mapGet rest k

/-- Go map update m[k] = v: overwrite in place, else append. -/
def mapPut {α : Type} (m : List (String × α)) (k : String) (v : α) : List (String × α) :=
  match m with
  | [] => [(k, v)]
  | (k2, v2) :: rest => if k2 = k then (k, v) :: rest else (k2, v2) :: mapPut rest k v

/-- Character-list version of Go strings.HasPrefix: listPre p s decides
whether p is a leading segment of s. -/
def listPre : List Char → List Char → Bool
  | [], _ => true
  | _ :: _, [] => false
  | a :: as, b :: bs => a = b && listPre as bs

/-- Go strings.HasPrefix(s, p), argument order (p, s). -/
def strPre (p s : String) : Bool := listPre p.toList s.toList

/-- A container terminated state (corev1.ContainerStateTerminated):
StartedAt and FinishedAt timestamps. -/
structure Terminated where
  startedAt : ℤ
  finishedAt : ℤ
deriving DecidableEq

/-- corev1.ContainerStatus: name plus the optional terminated state
(State.Terminated, nil when the container has not terminated). -/
structure ContainerStatus where
  name : String
  terminated : Option Terminated
deriving DecidableEq

/-- An entry of pod.Spec.Containers; only the name is consulted. -/
structure SpecContainer where
  name : String
deriving DecidableEq

/-- corev1.PodPhase. -/
inductive PodPhase
  | pending
  | running
  | succeeded
  | failed
  | unknown
deriving DecidableEq

/-- corev1.Pod, restricted to the fields the tool reads.  labelKeys is the
key set of pod.Labels; startTime is pod.Status.StartTime (nil = none). -/
structure Pod where
  kind : String
  ns : String
  name : String
  labelKeys : List String
  startTime : Option ℤ
  phase : PodPhase
  specContainers : List SpecContainer
  containerStatuses : List ContainerStatus
deriving DecidableEq

/-- v1beta1.PipelineRun, restricted to the fields the tool reads.
done models IsDone() (the Succeeded condition is terminal); startTime models
Status.StartTime (HasStarted() is abstracted to startTime being set). -/
structure PipelineRun where
  kind : String
  ns : String
  name : String
  startTime : Option ℤ
  completionTime : Option ℤ
  done : Bool
deriving DecidableEq

/-- fmt.Sprintf "%s:%s" pr.Namespace pr.Name. -/
def prKeyOf (pr : PipelineRun) : String := pr.ns ++ ":" ++ pr.name

/-- fmt.Sprintf "%s:%s" pod.Namespace pod.Name. -/
def podKeyOf (pod : Pod) : String := pod.ns ++ ":" ++ pod.name

/-- fmt.Sprintf "%s:%s-%s" pod.Namespace pod.Name cstatus.Name. -/
def containerKeyOf (pod : Pod) (cname : String) : String :=
  pod.ns ++ ":" ++ pod.name ++ "-" ++ cname

/-- The per-kind accumulation state: the Go globals xxStartTimes,
xxEndTimes, xxToDuration and xxDurations for one kind, grouped into a
record (the set map xxDurationsMap is the membership of durations). -/
structure KindState where
  startTimes : List (String × ℤ)
  endTimes : List (String × ℤ)
  toDuration : List (String × ℤ)
  durations : List ℤ
deriving DecidableEq

/-- The state of a fresh process: every map and slice empty. -/
def KindState.init : KindState := ⟨[], [], [], []⟩

/-- ignorePipelineRun from the source: filter mismatch, not started, or not
done. -/
def ignorePipelineRun (pr : PipelineRun) (prFilter : String) : Bool :=
  if 0 < prFilter.length ∧ prKeyOf pr ≠ prFilter then true
  else if pr.startTime.isNone then true
  else if pr.done = false then true
  else false

/-- ignorePod from the source: no start time, non-terminal phase, missing
tekton.dev/pipelineRun label, or filter mismatch. -/
def ignorePod (pod : Pod) (prFilter : String) : Bool :=
  if pod.startTime.isNone then true
  else if pod.phase ≠ PodPhase.succeeded ∧ pod.phase ≠ PodPhase.failed then true
  else if "tekton.dev/pipelineRun" ∉ pod.labelKeys then true
  else if 0 < prFilter.length ∧ strPre prFilter (podKeyOf pod) = false then true
  else false

/-- The duration computed by processPipelineRun:
CompletionTime.Sub(StartTime.Time). -/
def prDurOf (pr : PipelineRun) : ℤ :=
  pr.completionTime.getD 0 - pr.startTime.getD 0

/-- processPipelineRun from the source: record duration, start and end under
the run's key; append the duration to the distinct-durations slice when not
seen before. -/
def processPipelineRun (st : KindState) (pr : PipelineRun) : KindState :=
  let duration := prDurOf pr
  let key := prKeyOf pr
  { startTimes := mapPut st.startTimes key (pr.startTime.getD 0)
    endTimes := mapPut st.endTimes key (pr.completionTime.getD 0)
    toDuration := mapPut st.toDuration key duration
    durations :=
      if duration ∈ st.durations then st.durations else st.durations ++ [duration] }

/-- The loop body of processPod that computes terimnatedTime: keep the
FinishedAt of a terminated container status when it is After the
accumulator. -/
def latestStep (acc : ℤ) (cstatus : ContainerStatus) : ℤ :=
  match cstatus.terminated with
  | none => acc
  | some t => if t.finishedAt > acc then t.finishedAt else acc

/-- The terimnatedTime loop of processPod: latest FinishedAt among
terminated container statuses, starting from the zero time value. -/
def latestFinished (statuses : List ContainerStatus) : ℤ :=
  statuses.foldl latestStep 0

/-- processPod from the source: end = terimnatedTime (latest FinishedAt of
the terminated container statuses, zero when there is none), duration =
end minus the pod's StartTime. -/
def processPod (st : KindState) (pod : Pod) : KindState :=
  let terimnatedTime := latestFinished pod.containerStatuses
  let duration := terimnatedTime - pod.startTime.getD 0
  let key := podKeyOf pod
  { startTimes := mapPut st.startTimes key (pod.startTime.getD 0)
    endTimes := mapPut st.endTimes key terimnatedTime
    toDuration := mapPut st.toDuration key duration
    durations :=
      if duration ∈ st.durations then st.durations else st.durations ++ [duration] }

/-- The Go loop building a name-to-index map: for index, c := range names
\x7b m[c] = index \x7d. -/
def idxMapAux (m : List (String × ℕ)) : List String → ℕ → List (String × ℕ)
  | [], _ => m
  | n :: rest, i => idxMapAux (mapPut m n i) rest (i + 1)

/-- specNameToIndex / statusNameToIndex construction. -/
def idxMap (names : List String) : List (String × ℕ) := idxMapAux [] names 0

/-- The window start computed by processContainers for one terminated
container status: its own StartedAt, unless its spec index is nonzero and
the spec-order predecessor's status (located through statusNameToIndex,
default index 0) is terminated, in which case that predecessor's
FinishedAt. -/
def containerStartOf (pod : Pod) (cstatus : ContainerStatus) (t : Terminated) : ℤ :=
  let specNameToIndex := idxMap (pod.specContainers.map (fun c => c.name))
  let statusNameToIndex := idxMap (pod.containerStatuses.map (fun c => c.name))
  let specIndex := (mapGet specNameToIndex cstatus.name).getD 0
  if specIndex ≠ 0 then
    let priorContainerName := (pod.specContainers.getD (specIndex - 1) ⟨""⟩).name
    let priorContainerStatusIndex := (mapGet statusNameToIndex priorContainerName).getD 0
    let priorContainerStatus := pod.containerStatuses.getD priorContainerStatusIndex ⟨"", none⟩
    match priorContainerStatus.terminated with
    | some t2 => t2.finishedAt
    | none => t.startedAt
  else t.startedAt

/-- The loop body of processContainers: skip a status with no terminated
state; otherwise record (start, finish, duration) under the container key,
where start is containerStartOf and finish the container's own FinishedAt. -/
def containerStep (pod : Pod) (s : KindState) (cstatus : ContainerStatus) : KindState :=
  match cstatus.terminated with
  | none => s
  | some t =>
    let started := containerStartOf pod cstatus t
    let finished := t.finishedAt
    let duration := finished - started
    let ckey := containerKeyOf pod cstatus.name
    { startTimes := mapPut s.startTimes ckey started
      endTimes := mapPut s.endTimes ckey finished
      toDuration := mapPut s.toDuration ckey duration
      durations :=
        if duration ∈ s.durations then s.durations
        else s.durations ++ [duration] }

/-- processContainers from the source: the loop over the pod's container
statuses. -/
def processContainers (st : KindState) (pod : Pod) : KindState :=
  pod.containerStatuses.foldl (containerStep pod) st

/-- The per-candidate test of the innerConcurrency loop body: identical
window, or half-open overlap (start.Before(en) and end.After(st)). -/
def countsOverlap (st en s e : ℤ) : Bool :=
  (s = st ∧ e = en) ∨ (s < en ∧ e > st)

/-- innerConcurrency from the source: 1 (self) plus the number of other
entries of the starts map whose window passes countsOverlap against the
query window; missing keys read as the zero time. -/
def innerConcurrency (key : String) (starts ends : List (String × ℤ)) : ℤ :=
  let st := (mapGet starts key).getD 0
  let en := (mapGet ends key).getD 0
  1 + (starts.countP
        (fun kv => kv.1 ≠ key ∧ countsOverlap st en kv.2 ((mapGet ends kv.1).getD 0) = true) : ℤ)

/-- Outcome of visiting one regular file during the filepath.Walk of
processPRFiles: the read fails, the JSON unmarshal fails, or a PipelineRun
list is decoded. -/
inductive PRFileRead
  | unreadable
  | undecodable
  | decoded (items : List PipelineRun)
deriving DecidableEq

/-- The items accumulated by the walk of processPRFiles: unreadable and
undecodable files are skipped (the walk callback prints to stderr and
returns nil so that the walk continues); decoded lists are filtered to the
entries whose Kind is PipelineRun. -/
def prFileItems : List PRFileRead → List PipelineRun
  | [] => []
  | PRFileRead.unreadable :: rest => prFileItems rest
  | PRFileRead.undecodable :: rest => prFileItems rest
  | PRFileRead.decoded items :: rest =>
      items.filter (fun pr => pr.kind = "PipelineRun") ++ prFileItems rest

/-- processPRFiles from the source.  The walk callback always returns nil,
so the error component of the result is always nil. -/
def processPRFiles (files : List PRFileRead) : List PipelineRun × Option String :=
  (prFileItems files, none)

/-- Outcome of visiting one file during the walk of processPodFiles. -/
inductive PodFileRead
  | unreadable
  | undecodable
  | decoded (items : List Pod)
deriving DecidableEq

/-- The items accumulated by the walk of processPodFiles. -/
def podFileItems : List PodFileRead → List Pod
  | [] => []
  | PodFileRead.unreadable :: rest => podFileItems rest
  | PodFileRead.undecodable :: rest => podFileItems rest
  | PodFileRead.decoded items :: rest =>
      items.filter (fun pod => pod.kind = "Pod") ++ podFileItems rest

/-- processPodFiles from the source; as for PipelineRuns the error
component is always nil. -/
def processPodFiles (files : List PodFileRead) : List Pod × Option String :=
  (podFileItems files, none)

/-- The result quadruple of the parse functions: keys, durations,
concurrencies, and the ok flag. -/
structure ParseResult where
  retS : List String
  retF : List ℤ
  retI : List ℤ
  ok : Bool
deriving DecidableEq

/-- The double emission loop shared by the parse functions: for every
duration value of ds in order, every map entry carrying that value. -/
def emitRanked (m : List (String × ℤ)) : List ℤ → List (String × ℤ)
  | [] => []
  | d :: rest => m.filter (fun kv => kv.2 = d) ++ emitRanked m rest

/-- Assemble retS, retF, retI from a kind state whose durations slice has
already been sorted: keys, duration values, and the concurrency of each
emitted key against the state's window maps. -/
def rankedOut (st : KindState) : ParseResult :=
  let pairs := emitRanked st.toDuration st.durations
  { retS := pairs.map (fun kv => kv.1)
    retF := pairs.map (fun kv => kv.2)
    retI := pairs.map (fun kv => innerConcurrency kv.1 st.startTimes st.endTimes)
    ok := true }

/-- The processing loop of parsePipelineRunList: process every run that
the ignore filter admits. -/
def prFold (prFilter : String) (st : KindState) (items : List PipelineRun) : KindState :=
  items.foldl
    (fun s pr => if ignorePipelineRun pr prFilter then s else processPipelineRun s pr) st

/-- parsePipelineRunList from the source: ingest the files, bail out with
ok = false on a reported read error (unreachable, since processPRFiles
always reports nil), process the admitted runs, sort the durations slice in
place, and emit ranked results. -/
def parsePipelineRunList (st : KindState) (files : List PRFileRead) (prFilter : String) :
    ParseResult × KindState :=
  let res := processPRFiles files
  match res.2 with
  | some msg => ({ retS := ["ERROR: problem reading file: " ++ msg], retF := [], retI := [],
                   ok := false }, st)
  | none =>
    let st2 := prFold prFilter st res.1
    let st3 := { st2 with durations := List.insertionSort (fun a b => a ≤ b) st2.durations }
    (rankedOut st3, st3)

/-- The processing loop of parsePodList: pods feed processPod, or
processContainers when containersOnly is set. -/
def podFold (prFilter : String) (containerOnly : Bool) (sts : KindState × KindState)
    (items : List Pod) : KindState × KindState :=
  items.foldl
    (fun s pod =>
      if ignorePod pod prFilter then s
      else if containerOnly = false then (processPod s.1 pod, s.2)
      else (s.1, processContainers s.2 pod)) sts

/-- parsePodList from the source: ingest, process, then sort and emit from
the pod state (default) or the container state (containersOnly). -/
def parsePodList (podSt contSt : KindState) (files : List PodFileRead) (prFilter : String)
    (containerOnly : Bool) : ParseResult × KindState × KindState :=
  let res := processPodFiles files
  match res.2 with
  | some msg => ({ retS := ["ERROR: file not marshalling into a Pod list: " ++ msg],
                   retF := [], retI := [], ok := false }, podSt, contSt)
  | none =>
    let sts := podFold prFilter containerOnly (podSt, contSt) res.1
    if containerOnly = false then
      let podSt3 := { sts.1 with
        durations := List.insertionSort (fun a b => a ≤ b) sts.1.durations }
      (rankedOut podSt3, podSt3, sts.2)
    else
      let contSt3 := { sts.2 with
        durations := List.insertionSort (fun a b => a ≤ b) sts.2.durations }
      (rankedOut contSt3, sts.1, contSt3)

/-- One output row of the all command of the newest revision. -/
structure AllRow where
  prKey : String
  prDuration : ℤ
  prConcurrency : ℤ
  totalTRDuration : ℤ
  trDelta : ℤ
  trPercent : ℚ
  maxTRConcurrency : ℤ
  totalPodDuration : ℤ
  podDelta : ℤ
  podPercent : ℚ
  maxPodConcurrency : ℤ
deriving DecidableEq

/-- The TaskRun inner loop of the all command: over the TaskRun triples
whose key has the parent key as a prefix, accumulate the duration total and
take the running maximum of the concurrencies. -/
def trAgg (prkey : String) (retS : List String) (retF : List ℤ) (retI : List ℤ) : ℤ × ℤ :=
  (retS.zip (retF.zip retI)).foldl
    (fun acc e =>
      if strPre prkey e.1 then
        (acc.1 + e.2.1, if e.2.2 > acc.2 then e.2.2 else acc.2)
      else acc) (0, 0)

/-- The Pod inner loop of the all command, embedded exactly as written:
the accumulator is first incremented by the candidate concurrency and the
maximum test is made against the incremented value. -/
def podAgg (prkey : String) (retS : List String) (retF : List ℤ) (retI : List ℤ) : ℤ × ℤ :=
  (retS.zip (retF.zip retI)).foldl
    (fun acc e =>
      if strPre prkey e.1 then
        (acc.1 + e.2.1,
         let m := acc.2 + e.2.2
         if e.2.2 > m then e.2.2 else m)
      else acc) (0, 0)

/-- The aggregation loop of the all command: one row per PipelineRun triple,
with TaskRun and Pod child totals, deltas, percentages and concurrency
reductions. -/
def allThreeRows (r1 r2 r3 : ParseResult) : List AllRow :=
  (r1.retS.zip (r1.retF.zip r1.retI)).map
    (fun e =>
      let tr := trAgg e.1 r2.retS r2.retF r2.retI
      let pods := podAgg e.1 r3.retS r3.retF r3.retI
      { prKey := e.1
        prDuration := e.2.1
        prConcurrency := e.2.2
        totalTRDuration := tr.1
        trDelta := e.2.1 - tr.1
        trPercent := (tr.1 : ℚ) / (e.2.1 : ℚ)
        maxTRConcurrency := tr.2
        totalPodDuration := pods.1
        podDelta := e.2.1 - pods.1
        podPercent := (pods.1 : ℚ) / (e.2.1 : ℚ)
        maxPodConcurrency := pods.2 })

/-- prOwns from the source: namespace equality and literal name-prefix
containment. -/
def prOwns (kidns kidname prns prname : String) : Bool :=
  if kidns ≠ prns then false
  else if strPre prname kidname = false then false
  else true

/-- Reference sum of matched child durations: the sum of the duration
entries whose key has the parent key as a prefix (the specification's
childTotal). -/
def childSum (prkey : String) (keys : List String) (vals : List ℤ) : ℤ :=
  (((keys.zip vals).filter (fun e => strPre prkey e.1)).map (fun e => e.2)).sum

/-- Reference maximum of matched child concurrencies, 0 when no child
matches (the specification's maxChildConcurrency). -/
def maxChildConc (prkey : String) (keys : List String) (concs : List ℤ) : ℤ :=
  (((keys.zip concs).filter (fun e => strPre prkey e.1)).map (fun e => e.2)).foldl
    (fun a b => max a b) 0

/- ## Association-list and prefix lemmas -/

theorem mapGet_mapPut_self {α : Type} (m : List (String × α)) (k : String) (v : α) :
    mapGet (mapPut m k v) k = some v := by
  induction m with
  | nil => simp [mapGet, mapPut]
  | cons kv rest ih =>
    obtain ⟨k2, v2⟩ := kv
    by_cases h : k2 = k
    · simp [mapPut, h, mapGet]
    · simp [mapPut, h, mapGet, ih]

theorem mapGet_mapPut_ne {α : Type} (m : List (String × α)) (k k3 : String) (v : α)
    (h : k3 ≠ k) : mapGet (mapPut m k v) k3 = mapGet m k3 := by
  have hk : k ≠ k3 := fun hh => h hh.symm
  induction m with
  | nil => simp [mapPut, mapGet, hk]
  | cons kv rest ih =>
    obtain ⟨k2, v2⟩ := kv
    by_cases h2 : k2 = k
    · subst h2
      simp [mapPut, mapGet, hk]
    · simp [mapPut, h2, mapGet, ih]

theorem mapPut_fresh {α : Type} (m : List (String × α)) (k : String) (v : α)
    (h : k ∉ m.map Prod.fst) : mapPut m k v = m ++ [(k, v)] := by
  induction m with
  | nil => rfl
  | cons kv rest ih =>
    obtain ⟨k2, v2⟩ := kv
    simp only [List.map_cons, List.mem_cons] at h
    push_neg at h
    have hne : k2 ≠ k := fun hh => h.1 hh.symm
    simp [mapPut, hne, ih h.2]

theorem mapGet_unique {α : Type} (m : List (String × α)) (k : String) (v v2 : α)
    (hnd : (m.map Prod.fst).Nodup) (hmem : (k, v2) ∈ m) (hget : mapGet m k = some v) :
    v2 = v := by
  induction m with
  | nil => cases hmem
  | cons kv rest ih =>
    obtain ⟨k2, v3⟩ := kv
    simp only [List.map_cons, List.nodup_cons] at hnd
    rcases List.mem_cons.mp hmem with h | h
    · injection h with h1 h2
      subst h1
      subst h2
      simp only [mapGet, if_pos rfl] at hget
      exact Option.some.inj hget
    · have hk2 : k2 ≠ k := by
        intro hh
        subst hh
        exact hnd.1 (List.mem_map_of_mem Prod.fst h)
      simp only [mapGet, if_neg hk2] at hget
      exact ih hnd.2 h hget

theorem mapGet_of_mem_nodup {α : Type} (m : List (String × α)) (k : String) (v : α)
    (hnd : (m.map Prod.fst).Nodup) (hmem : (k, v) ∈ m) : mapGet m k = some v := by
  induction m with
  | nil => cases hmem
  | cons kv rest ih =>
    obtain ⟨k2, v2⟩ := kv
    simp only [List.map_cons, List.nodup_cons] at hnd
    rcases List.mem_cons.mp hmem with h | h
    · injection h with h1 h2
      subst h1
      subst h2
      simp [mapGet]
    · have hk2 : k2 ≠ k := by
        intro hh
        subst hh
        exact hnd.1 (List.mem_map_of_mem Prod.fst h)
      simp only [mapGet, if_neg hk2]
      exact ih hnd.2 h

theorem mapGet_filter_ne {α : Type} (m : List (String × α)) (a b : String) (hab : a ≠ b) :
    mapGet (m.filter fun kv => kv.1 ≠ b) a = mapGet m a := by
  induction m with
  | nil => rfl
  | cons kv rest ih =>
    obtain ⟨k2, v2⟩ := kv
    have ih2 : mapGet (List.filter (fun kv => !decide (kv.1 = b)) rest) a = mapGet rest a := by
      simpa using ih
    by_cases h2 : k2 = b
    · subst h2
      have hne : k2 ≠ a := fun hh => hab hh.symm
      simp [List.filter_cons, mapGet, hne, ih2]
    · by_cases h3 : k2 = a
      · simp [List.filter_cons, h2, h3, mapGet, hab]
      · simp [List.filter_cons, h2, h3, mapGet, ih2]

theorem countP_filter_ne {α : Type} (p : String × α → Bool) (m : List (String × α))
    (b : String) (h : ∀ kv ∈ m, kv.1 = b → p kv = false) :
    (m.filter fun kv => kv.1 ≠ b).countP p = m.countP p := by
  induction m with
  | nil => rfl
  | cons kv rest ih =>
    have hrest : ∀ kv2 ∈ rest, kv2.1 = b → p kv2 = false := fun kv2 hm => h kv2 (by simp [hm])
    have ih2 : List.countP p (List.filter (fun kv => !decide (kv.1 = b)) rest) =
        List.countP p rest := by
      simpa using ih hrest
    by_cases h2 : kv.1 = b
    · have hp : p kv = false := h kv (by simp) h2
      simp [List.filter_cons, h2, List.countP_cons, hp, ih2]
    · simp [List.filter_cons, h2, List.countP_cons, ih2]

theorem listPre_iff (p s : List Char) : listPre p s = true ↔ ∃ t, p ++ t = s := by
  induction p generalizing s with
  | nil => simp [listPre]
  | cons a as ih =>
    cases s with
    | nil =>
      simp only [listPre, List.cons_append]
      constructor
      · intro hh; cases hh
      · rintro ⟨t, ht⟩; cases ht
    | cons b bs =>
      simp only [listPre, Bool.and_eq_true, decide_eq_true_eq, ih]
      constructor
      · rintro ⟨hab, t, ht⟩
        exact ⟨t, by simp [hab, ht]⟩
      · rintro ⟨t, ht⟩
        injection ht with h1 h2
        exact ⟨h1, t, h2⟩

theorem strPre_iff (p s : String) : strPre p s = true ↔ ∃ t, p.toList ++ t = s.toList :=
  listPre_iff p.toList s.toList

theorem prFileItems_filter (files : List PRFileRead) :
    prFileItems (files.filter fun f => match f with
      | PRFileRead.decoded _ => true
      | _ => false) = prFileItems files := by
  induction files with
  | nil => rfl
  | cons f rest ih => cases f <;> simp [List.filter_cons, prFileItems, ih]

/-- Dropping an entity y that fails the overlap test against x from both
window maps leaves the concurrency computed for x unchanged. -/
theorem innerConcurrency_drop (starts ends : List (String × ℤ)) (x y : String)
    (sx ex sy ey : ℤ) (hndS : (starts.map Prod.fst).Nodup)
    (hsx : mapGet starts x = some sx) (hex : mapGet ends x = some ex)
    (hsy : mapGet starts y = some sy) (hey : mapGet ends y = some ey)
    (hxy : x ≠ y) (hco : countsOverlap sx ex sy ey = false) :
    innerConcurrency x starts ends =
      innerConcurrency x (starts.filter fun kv => kv.1 ≠ y)
        (ends.filter fun kv => kv.1 ≠ y) := by
  unfold innerConcurrency
  rw [mapGet_filter_ne starts x y hxy, mapGet_filter_ne ends x y hxy, hsx, hex]
  simp only [Option.getD_some]
  have hA : List.countP
      (fun kv => decide (kv.1 ≠ x ∧
        countsOverlap sx ex kv.2 ((mapGet (ends.filter fun kv => kv.1 ≠ y) kv.1).getD 0) = true))
      (starts.filter fun kv => kv.1 ≠ y) =
      List.countP
      (fun kv => decide (kv.1 ≠ x ∧ countsOverlap sx ex kv.2 ((mapGet ends kv.1).getD 0) = true))
      (starts.filter fun kv => kv.1 ≠ y) := by
    apply List.countP_congr
    intro kv hkv
    have hkvy : kv.1 ≠ y := by
      have := (List.mem_filter.mp hkv).2
      simpa using this
    rw [mapGet_filter_ne ends kv.1 y hkvy]
  have hB : List.countP
      (fun kv => decide (kv.1 ≠ x ∧ countsOverlap sx ex kv.2 ((mapGet ends kv.1).getD 0) = true))
      (starts.filter fun kv => kv.1 ≠ y) =
      List.countP
      (fun kv => decide (kv.1 ≠ x ∧ countsOverlap sx ex kv.2 ((mapGet ends kv.1).getD 0) = true))
      starts := by
    apply countP_filter_ne
    intro kv hkv hkvy
    have hval : kv.2 = sy := by
      have : (y, kv.2) ∈ starts := by
        have : kv = (y, kv.2) := Prod.ext hkvy rfl
        exact this ▸ hkv
      exact mapGet_unique starts y sy kv.2 hndS this hsy
    rw [decide_eq_false_iff_not]
    rintro ⟨-, hcount⟩
    rw [hkvy, hval, hey] at hcount
    simp only [Option.getD_some] at hcount
    rw [hco] at hcount
    cases hcount
  rw [hA, hB]

/-- Claim C9: the ownership predicate prOwns(candidate, parent) holds exactly
when the namespaces are equal and the candidate name has the parent name as
a literal string prefix, with no delimiter enforced; in particular a parent
named run-1 matches, in its namespace, both a candidate named run-1-task-a
and a candidate named run-10-task-a. -/
theorem c9_prOwns_literal_name_match :
    (∀ kidns kidname prns prname : String,
        prOwns kidns kidname prns prname = true ↔
          (kidns = prns ∧ ∃ t, prname.toList ++ t = kidname.toList)) ∧
    prOwns "ns" "run-1-task-a" "ns" "run-1" = true ∧
    prOwns "ns" "run-10-task-a" "ns" "run-1" = true := by
  refine ⟨?_, by decide, by decide⟩
  intro kidns kidname prns prname
  constructor
  · intro h
    unfold prOwns at h
    by_cases h1 : kidns ≠ prns
    · rw [if_pos h1] at h
      cases h
    · rw [if_neg h1] at h
      by_cases h2 : strPre prname kidname = false
      · rw [if_pos h2] at h
        cases h
      · push_neg at h1
        have hsp : strPre prname kidname = true := by
          cases hsp2 : strPre prname kidname
          · exact absurd hsp2 h2
          · rfl
        exact ⟨h1, (strPre_iff _ _).mp hsp⟩
  · rintro ⟨h1, t, ht⟩
    have hsp : strPre prname kidname = true := (strPre_iff _ _).mpr ⟨t, ht⟩
    simp [prOwns, h1, hsp]

/-- Claim C1 (code-bug evaluation): for a parent ns:run-1 with two matched
pod children of concurrency 2 each, the all command reports the pod child
concurrency reduction as 4 — the loop adds every matched pod concurrency
into maxPodConcurrency before making the maximum test, so the reported
value is the sum, while the maximum of the children's concurrencies is 2;
the TaskRun reduction of the same row correctly reports 0 for no matched
TaskRun children. -/
theorem c1_pod_concurrency_reported_as_sum :
    (allThreeRows { retS := ["ns:run-1"], retF := [100], retI := [1], ok := true }
        { retS := [], retF := [], retI := [], ok := true }
        { retS := ["ns:run-1-p1", "ns:run-1-p2"], retF := [10, 20], retI := [2, 2],
          ok := true }).map (fun row => row.maxPodConcurrency) = [4] ∧
    maxChildConc "ns:run-1" ["ns:run-1-p1", "ns:run-1-p2"] [2, 2] = 2 ∧
    (allThreeRows { retS := ["ns:run-1"], retF := [100], retI := [1], ok := true }
        { retS := [], retF := [], retI := [], ok := true }
        { retS := ["ns:run-1-p1", "ns:run-1-p2"], retF := [10, 20], retI := [2, 2],
          ok := true }).map (fun row => row.maxTRConcurrency) = [0] := by
  refine ⟨?_, by decide, ?_⟩
  · simp only [allThreeRows, podAgg, trAgg]
    decide
  · simp only [allThreeRows, podAgg, trAgg]
    decide

/-- Claim C2 counterexample: with one unreadable file followed by one
decodable file in the walked tree, parsePipelineRunList reports success and
returns the results of the decodable file — the analysis is not aborted and
partial results are returned. -/
theorem c2_counterexample :
    ((parsePipelineRunList KindState.init
        [PRFileRead.unreadable,
         PRFileRead.decoded [{ kind := "PipelineRun", ns := "ns", name := "a",
                               startTime := some 0, completionTime := some 5,
                               done := true }]] "").1.ok = true) ∧
    ((parsePipelineRunList KindState.init
        [PRFileRead.unreadable,
         PRFileRead.decoded [{ kind := "PipelineRun", ns := "ns", name := "a",
                               startTime := some 0, completionTime := some 5,
                               done := true }]] "").1.retS = ["ns:a"]) := by
  constructor
  · rfl
  · decide

/-- Claim C2 amended: a read failure does not abort the analysis: the
directory-walk reader prints the failure per path and continues, the parse
function always reports success, and the results are exactly those of the
decodable files alone (partial results). -/
theorem c2_walk_reader_skips_failures (st : KindState) (files : List PRFileRead)
    (prFilter : String) :
    (parsePipelineRunList st files prFilter).1.ok = true ∧
    parsePipelineRunList st files prFilter =
      parsePipelineRunList st
        (files.filter fun f => match f with
          | PRFileRead.decoded _ => true
          | _ => false) prFilter := by
  constructor
  · rfl
  · unfold parsePipelineRunList processPRFiles
    rw [prFileItems_filter]

/-- Claim C6 counterexample: entities a and b with the identical point
window [5,5] are disjoint in the claim's sense (a.end = 5 ≤ 5 = b.start),
yet b contributes to a's concurrency through the identical-window branch:
with b present a's concurrency is 2, with b removed it is 1. -/
theorem c6_counterexample :
    ((5:ℤ) ≤ 5) ∧
    innerConcurrency "a" [("a", (5:ℤ)), ("b", 5)] [("a", (5:ℤ)), ("b", 5)] = 2 ∧
    innerConcurrency "a" [("a", (5:ℤ))] [("a", (5:ℤ))] = 1 := by
  decide

/-- Claim C6 amended: if the windows of two distinct recorded entities a and
b are disjoint (a.end ≤ b.start or b.end ≤ a.start) and are not
byte-for-byte identical (the identical-window branch of the loop counts two
coincident windows as overlapping even when both are a single instant),
then neither passes the overlap test against the other and removing either
from the window maps leaves the other's concurrency unchanged. -/
theorem c6_disjoint_entities_do_not_interact
    (starts ends : List (String × ℤ)) (a b : String) (sa ea sb eb : ℤ)
    (hndS : (starts.map Prod.fst).Nodup)
    (hsa : mapGet starts a = some sa) (hea : mapGet ends a = some ea)
    (hsb : mapGet starts b = some sb) (heb : mapGet ends b = some eb)
    (hab : a ≠ b)
    (hdisj : ea ≤ sb ∨ eb ≤ sa)
    (hnotid : ¬(sa = sb ∧ ea = eb)) :
    countsOverlap sa ea sb eb = false ∧ countsOverlap sb eb sa ea = false ∧
    innerConcurrency a starts ends =
      innerConcurrency a (starts.filter fun kv => kv.1 ≠ b)
        (ends.filter fun kv => kv.1 ≠ b) ∧
    innerConcurrency b starts ends =
      innerConcurrency b (starts.filter fun kv => kv.1 ≠ a)
        (ends.filter fun kv => kv.1 ≠ a) := by
  have hco1 : countsOverlap sa ea sb eb = false := by
    rw [countsOverlap, decide_eq_false_iff_not]
    rintro (⟨h1, h2⟩ | ⟨h1, h2⟩)
    · exact hnotid ⟨h1.symm, h2.symm⟩
    · rcases hdisj with h | h
      · exact absurd h1 (not_lt.mpr h)
      · exact absurd h2 (not_lt.mpr h)
  have hco2 : countsOverlap sb eb sa ea = false := by
    rw [countsOverlap, decide_eq_false_iff_not]
    rintro (⟨h1, h2⟩ | ⟨h1, h2⟩)
    · exact hnotid ⟨h1, h2⟩
    · rcases hdisj with h | h
      · exact absurd h2 (not_lt.mpr h)
      · exact absurd h1 (not_lt.mpr h)
  exact ⟨hco1, hco2,
    innerConcurrency_drop starts ends a b sa ea sb eb hndS hsa hea hsb heb hab hco1,
    innerConcurrency_drop starts ends b a sb eb sa ea hndS hsb heb hsa hea
      (fun hh => hab hh.symm) hco2⟩

/-- Witness for the amended disjointness claim at a = [0,5], b = [10,15]. -/
theorem c6_witness :
    countsOverlap 0 5 10 15 = false ∧ countsOverlap 10 15 0 5 = false ∧
    innerConcurrency "a" [("a", (0:ℤ)), ("b", 10)] [("a", (5:ℤ)), ("b", 15)] =
      innerConcurrency "a" ([("a", (0:ℤ)), ("b", 10)].filter fun kv => kv.1 ≠ "b")
        ([("a", (5:ℤ)), ("b", 15)].filter fun kv => kv.1 ≠ "b") ∧
    innerConcurrency "b" [("a", (0:ℤ)), ("b", 10)] [("a", (5:ℤ)), ("b", 15)] =
      innerConcurrency "b" ([("a", (0:ℤ)), ("b", 10)].filter fun kv => kv.1 ≠ "a")
        ([("a", (5:ℤ)), ("b", 15)].filter fun kv => kv.1 ≠ "a") :=
  c6_disjoint_entities_do_not_interact [("a", 0), ("b", 10)] [("a", 5), ("b", 15)]
    "a" "b" 0 5 10 15 (by decide) (by decide) (by decide) (by decide) (by decide)
    (by decide) (by decide) (by decide)

/- ## Lemmas on the pod terminated-time loop -/

theorem foldl_latestStep_le (l : List ContainerStatus) (a : ℤ) :
    a ≤ l.foldl latestStep a := by
  induction l generalizing a with
  | nil => exact le_refl a
  | cons cs rest ih =>
    refine le_trans ?_ (ih (latestStep a cs))
    unfold latestStep
    cases cs.terminated with
    | none => exact le_refl a
    | some t =>
      by_cases h : t.finishedAt > a
      · simp [h, le_of_lt h]
      · simp [h]

theorem foldl_latestStep_ub (l : List ContainerStatus) (a : ℤ) :
    ∀ cs ∈ l, ∀ t, cs.terminated = some t → t.finishedAt ≤ l.foldl latestStep a := by
  induction l generalizing a with
  | nil => intro cs h; cases h
  | cons cs2 rest ih =>
    intro cs hmem t ht
    rcases List.mem_cons.mp hmem with h | h
    · subst h
      refine le_trans ?_ (foldl_latestStep_le rest (latestStep a cs))
      unfold latestStep
      rw [ht]
      by_cases h2 : t.finishedAt > a
      · simp [h2]
      · simp [h2]
        exact le_of_not_lt h2
    · exact ih (latestStep a cs2) cs h t ht

theorem foldl_latestStep_attained (l : List ContainerStatus) (a : ℤ) :
    l.foldl latestStep a = a ∨
      ∃ cs ∈ l, ∃ t, cs.terminated = some t ∧ t.finishedAt = l.foldl latestStep a := by
  induction l generalizing a with
  | nil => exact Or.inl rfl
  | cons cs2 rest ih =>
    rcases ih (latestStep a cs2) with h | h
    · rw [List.foldl_cons, h]
      unfold latestStep
      cases hterm : cs2.terminated with
      | none => exact Or.inl rfl
      | some t =>
        by_cases h2 : t.finishedAt > a
        · refine Or.inr ⟨cs2, List.mem_cons_self cs2 rest, t, hterm, ?_⟩
          simp [h2]
        · simp [h2]
    · obtain ⟨cs, hmem, t, ht, hfin⟩ := h
      exact Or.inr ⟨cs, List.mem_cons_of_mem cs2 hmem, t, ht, hfin⟩

theorem latestFinished_all_none (statuses : List ContainerStatus)
    (h : ∀ cs ∈ statuses, cs.terminated = none) : latestFinished statuses = 0 := by
  unfold latestFinished
  have haux : ∀ (l : List ContainerStatus) (a : ℤ), (∀ cs ∈ l, cs.terminated = none) →
      l.foldl latestStep a = a := by
    intro l
    induction l with
    | nil => intro a _; rfl
    | cons cs rest ih =>
      intro a hall
      rw [List.foldl_cons]
      have h1 : latestStep a cs = a := by
        unfold latestStep
        rw [hall cs (List.mem_cons_self cs rest)]
      rw [h1]
      exact ih a (fun cs2 hm => hall cs2 (List.mem_cons_of_mem cs hm))
  exact haux statuses 0 h

/-- Claim C3: for every pod with at least one terminated container status
whose FinishedAt is not before the zero time, the interval end recorded by
processPod is the latest FinishedAt among all terminated container
statuses — an upper bound that is attained — the recorded duration is that
end minus the pod's start, and the extracted end is invariant under any
permutation of the declared container status order. -/
theorem c3_pod_end_is_latest_finish (st : KindState) (pod : Pod)
    (h : ∃ cs ∈ pod.containerStatuses, ∃ t, cs.terminated = some t ∧ 0 ≤ t.finishedAt) :
    mapGet (processPod st pod).endTimes (podKeyOf pod) =
      some (latestFinished pod.containerStatuses) ∧
    mapGet (processPod st pod).toDuration (podKeyOf pod) =
      some (latestFinished pod.containerStatuses - pod.startTime.getD 0) ∧
    (∀ cs ∈ pod.containerStatuses, ∀ t, cs.terminated = some t →
        t.finishedAt ≤ latestFinished pod.containerStatuses) ∧
    (∃ cs ∈ pod.containerStatuses, ∃ t, cs.terminated = some t ∧
        t.finishedAt = latestFinished pod.containerStatuses) ∧
    (∀ statuses2 : List ContainerStatus, statuses2.Perm pod.containerStatuses →
        latestFinished statuses2 = latestFinished pod.containerStatuses) := by
  obtain ⟨cs0, hmem0, t0, ht0, hge0⟩ := h
  have hub : ∀ cs ∈ pod.containerStatuses, ∀ t, cs.terminated = some t →
      t.finishedAt ≤ latestFinished pod.containerStatuses :=
    fun cs hm t ht => foldl_latestStep_ub pod.containerStatuses 0 cs hm t ht
  have hattain : ∃ cs ∈ pod.containerStatuses, ∃ t, cs.terminated = some t ∧
      t.finishedAt = latestFinished pod.containerStatuses := by
    rcases foldl_latestStep_attained pod.containerStatuses 0 with h0 | h0
    · refine ⟨cs0, hmem0, t0, ht0, ?_⟩
      have h1 := hub cs0 hmem0 t0 ht0
      unfold latestFinished
      rw [h0]
      unfold latestFinished at h1
      rw [h0] at h1
      exact le_antisymm h1 hge0
    · exact h0
  refine ⟨?_, ?_, hub, hattain, ?_⟩
  · simp [processPod, mapGet_mapPut_self]
  · simp [processPod, mapGet_mapPut_self]
  · intro statuses2 hperm
    have hub2 : ∀ cs ∈ statuses2, ∀ t, cs.terminated = some t →
        t.finishedAt ≤ latestFinished statuses2 :=
      fun cs hm t ht => foldl_latestStep_ub statuses2 0 cs hm t ht
    have hattain2 : ∃ cs ∈ statuses2, ∃ t, cs.terminated = some t ∧
        t.finishedAt = latestFinished statuses2 := by
      rcases foldl_latestStep_attained statuses2 0 with h0 | h0
      · refine ⟨cs0, hperm.mem_iff.mpr hmem0, t0, ht0, ?_⟩
        have h1 := hub2 cs0 (hperm.mem_iff.mpr hmem0) t0 ht0
        unfold latestFinished
        rw [h0]
        unfold latestFinished at h1
        rw [h0] at h1
        exact le_antisymm h1 hge0
      · exact h0
    obtain ⟨csA, hmA, tA, htA, hfa⟩ := hattain2
    obtain ⟨csB, hmB, tB, htB, hfb⟩ := hattain
    have hle1 : latestFinished statuses2 ≤ latestFinished pod.containerStatuses := by
      rw [← hfa]
      exact hub csA (hperm.mem_iff.mp hmA) tA htA
    have hle2 : latestFinished pod.containerStatuses ≤ latestFinished statuses2 := by
      rw [← hfb]
      exact hub2 csB (hperm.mem_iff.mpr hmB) tB htB
    exact le_antisymm hle1 hle2

/-- Witness for the pod interval-end claim: statuses declared out of finish
order (finishes at 10, then 5) still yield end 10. -/
theorem c3_witness :
    mapGet (processPod KindState.init
        { kind := "Pod", ns := "ns", name := "p", labelKeys := ["tekton.dev/pipelineRun"],
          startTime := some 1, phase := PodPhase.succeeded, specContainers := [],
          containerStatuses := [⟨"c1", some ⟨1, 10⟩⟩, ⟨"c2", some ⟨1, 5⟩⟩] }).endTimes
      "ns:p" = some (latestFinished [⟨"c1", some ⟨1, 10⟩⟩, ⟨"c2", some ⟨1, 5⟩⟩]) ∧
    latestFinished [⟨"c1", some ⟨1, 10⟩⟩, ⟨"c2", some ⟨1, 5⟩⟩] = 10 :=
  ⟨(c3_pod_end_is_latest_finish KindState.init
      { kind := "Pod", ns := "ns", name := "p", labelKeys := ["tekton.dev/pipelineRun"],
        startTime := some 1, phase := PodPhase.succeeded, specContainers := [],
        containerStatuses := [⟨"c1", some ⟨1, 10⟩⟩, ⟨"c2", some ⟨1, 5⟩⟩] }
      (by decide)).1, by decide⟩

/-- Claim C10: a pod that passes the eligibility filter but has no
terminated container status is recorded with interval end equal to the zero
time value and hence a negative duration (end before start), and it still
appears in the flat output of the pod analysis with that negative
duration. -/
theorem c10_nonterminated_pod_kept_with_negative_duration (pod : Pod) (s : ℤ)
    (hstart : pod.startTime = some s) (hpos : 0 < s)
    (hphase : pod.phase = PodPhase.succeeded ∨ pod.phase = PodPhase.failed)
    (hlabel : "tekton.dev/pipelineRun" ∈ pod.labelKeys)
    (hkind : pod.kind = "Pod")
    (hnone : ∀ cs ∈ pod.containerStatuses, cs.terminated = none) :
    mapGet (processPod KindState.init pod).endTimes (podKeyOf pod) = some 0 ∧
    mapGet (processPod KindState.init pod).toDuration (podKeyOf pod) = some (0 - s) ∧
    0 - s < 0 ∧
    (parsePodList KindState.init KindState.init [PodFileRead.decoded [pod]] "" false).1.retS =
      [podKeyOf pod] ∧
    (parsePodList KindState.init KindState.init [PodFileRead.decoded [pod]] "" false).1.retF =
      [0 - s] := by
  have hT : latestFinished pod.containerStatuses = 0 := latestFinished_all_none _ hnone
  have hig : ignorePod pod "" = false := by
    rcases hphase with h | h <;>
      simp [ignorePod, hstart, h, hlabel]
  constructor
  · simp [processPod, hT, mapGet_mapPut_self]
  constructor
  · simp [processPod, hT, hstart, mapGet_mapPut_self]
  constructor
  · omega
  · have hout : (parsePodList KindState.init KindState.init [PodFileRead.decoded [pod]] ""
        false).1 = rankedOut
          { startTimes := [(podKeyOf pod, s)], endTimes := [(podKeyOf pod, 0)],
            toDuration := [(podKeyOf pod, 0 - s)], durations := [0 - s] } := by
      simp [parsePodList, processPodFiles, podFileItems, hkind, podFold, hig, processPod, hT,
        hstart, KindState.init, mapPut, List.insertionSort, List.orderedInsert]
    rw [hout]
    constructor
    · simp [rankedOut, emitRanked]
    · simp [rankedOut, emitRanked]

/-- Witness for the negative-duration pod claim at start time 10. -/
theorem c10_witness :
    mapGet (processPod KindState.init
        { kind := "Pod", ns := "ns", name := "p", labelKeys := ["tekton.dev/pipelineRun"],
          startTime := some 10, phase := PodPhase.succeeded, specContainers := [],
          containerStatuses := [⟨"c1", none⟩] }).toDuration "ns:p" = some (0 - 10) ∧
    (0:ℤ) - 10 < 0 ∧
    (parsePodList KindState.init KindState.init
        [PodFileRead.decoded [⟨"Pod", "ns", "p", ["tekton.dev/pipelineRun"], some 10,
          PodPhase.succeeded, [], [⟨"c1", none⟩]⟩]] "" false).1.retF = [0 - 10] := by
  have h := c10_nonterminated_pod_kept_with_negative_duration
    { kind := "Pod", ns := "ns", name := "p", labelKeys := ["tekton.dev/pipelineRun"],
      startTime := some 10, phase := PodPhase.succeeded, specContainers := [],
      containerStatuses := [⟨"c1", none⟩] } 10 rfl (by decide) (Or.inl rfl) (by decide) rfl
    (by decide)
  exact ⟨h.2.1, h.2.2.1, h.2.2.2.2⟩

/- ## Lemmas on the aggregation loops of the all command -/

theorem trAgg_fst_eq_childSum (prkey : String) (S : List String) (F I : List ℤ)
    (hF : F.length = S.length) (hI : I.length = S.length) :
    (trAgg prkey S F I).1 = childSum prkey S F := by
  suffices haux : ∀ (S : List String) (F I : List ℤ) (acc : ℤ × ℤ),
      F.length = S.length → I.length = S.length →
      ((S.zip (F.zip I)).foldl
        (fun acc e =>
          if strPre prkey e.1 then
            (acc.1 + e.2.1, if e.2.2 > acc.2 then e.2.2 else acc.2)
          else acc) acc).1 = acc.1 + childSum prkey S F by
    have h := haux S F I (0, 0) hF hI
    rw [trAgg, h, zero_add]
  intro S
  induction S with
  | nil =>
    intro F I acc h1 h2
    simp [childSum]
  | cons s S2 ih =>
    intro F I acc hF hI
    cases F with
    | nil => simp at hF
    | cons f F2 =>
      cases I with
      | nil => simp at hI
      | cons i I2 =>
        have hF2 : F2.length = S2.length := by simpa using hF
        have hI2 : I2.length = S2.length := by simpa using hI
        simp only [List.zip_cons_cons, List.foldl_cons]
        by_cases hp : strPre prkey s = true
        · have hcs : childSum prkey (s :: S2) (f :: F2) = f + childSum prkey S2 F2 := by
            simp [childSum, List.zip_cons_cons, List.filter_cons, hp]
          rw [hcs]
          simp only [hp, if_true]
          rw [ih F2 I2 _ hF2 hI2]
          ring
        · have hps : strPre prkey s = false := by
            cases hq : strPre prkey s
            · rfl
            · exact absurd hq hp
          have hcs : childSum prkey (s :: S2) (f :: F2) = childSum prkey S2 F2 := by
            simp [childSum, List.zip_cons_cons, List.filter_cons, hps]
          rw [hcs]
          simp only [hps, Bool.false_eq_true, if_false]
          exact ih F2 I2 acc hF2 hI2

theorem podAgg_fst_eq_childSum (prkey : String) (S : List String) (F I : List ℤ)
    (hF : F.length = S.length) (hI : I.length = S.length) :
    (podAgg prkey S F I).1 = childSum prkey S F := by
  suffices haux : ∀ (S : List String) (F I : List ℤ) (acc : ℤ × ℤ),
      F.length = S.length → I.length = S.length →
      ((S.zip (F.zip I)).foldl
        (fun acc e =>
          if strPre prkey e.1 then
            (acc.1 + e.2.1,
             let m := acc.2 + e.2.2
             if e.2.2 > m then e.2.2 else m)
          else acc) acc).1 = acc.1 + childSum prkey S F by
    have h := haux S F I (0, 0) hF hI
    rw [podAgg, h, zero_add]
  intro S
  induction S with
  | nil =>
    intro F I acc h1 h2
    simp [childSum]
  | cons s S2 ih =>
    intro F I acc hF hI
    cases F with
    | nil => simp at hF
    | cons f F2 =>
      cases I with
      | nil => simp at hI
      | cons i I2 =>
        have hF2 : F2.length = S2.length := by simpa using hF
        have hI2 : I2.length = S2.length := by simpa using hI
        simp only [List.zip_cons_cons, List.foldl_cons]
        by_cases hp : strPre prkey s = true
        · have hcs : childSum prkey (s :: S2) (f :: F2) = f + childSum prkey S2 F2 := by
            simp [childSum, List.zip_cons_cons, List.filter_cons, hp]
          rw [hcs]
          simp only [hp, if_true]
          rw [ih F2 I2 _ hF2 hI2]
          ring
        · have hps : strPre prkey s = false := by
            cases hq : strPre prkey s
            · rfl
            · exact absurd hq hp
          have hcs : childSum prkey (s :: S2) (f :: F2) = childSum prkey S2 F2 := by
            simp [childSum, List.zip_cons_cons, List.filter_cons, hps]
          rw [hcs]
          simp only [hps, Bool.false_eq_true, if_false]
          exact ih F2 I2 acc hF2 hI2

/-- Claim C7: every aggregate row of the all command reports the child
total as the sum of the matched children's durations, the delta as the
parent duration minus the child total with no clamping, and the percentage
as the child total divided by the parent duration — for TaskRun children
and Pod children alike. -/
theorem c7_aggregate_row (r1 r2 r3 : ParseResult)
    (h2F : r2.retF.length = r2.retS.length) (h2I : r2.retI.length = r2.retS.length)
    (h3F : r3.retF.length = r3.retS.length) (h3I : r3.retI.length = r3.retS.length) :
    ∀ row ∈ allThreeRows r1 r2 r3,
      row.totalTRDuration = childSum row.prKey r2.retS r2.retF ∧
      row.trDelta = row.prDuration - row.totalTRDuration ∧
      row.trPercent = (row.totalTRDuration : ℚ) / (row.prDuration : ℚ) ∧
      row.totalPodDuration = childSum row.prKey r3.retS r3.retF ∧
      row.podDelta = row.prDuration - row.totalPodDuration ∧
      row.podPercent = (row.totalPodDuration : ℚ) / (row.prDuration : ℚ) := by
  intro row hrow
  simp only [allThreeRows, List.mem_map] at hrow
  obtain ⟨e, he, rfl⟩ := hrow
  exact ⟨trAgg_fst_eq_childSum e.1 r2.retS r2.retF r2.retI h2F h2I, rfl, rfl,
    podAgg_fst_eq_childSum e.1 r3.retS r3.retF r3.retI h3F h3I, rfl, rfl⟩

/-- Witness for the aggregate-row claim at the specification's example:
parent of 100 with children of 30 and 40 yields childTotal 70, delta 30
and percentage 70/100. -/
theorem c7_witness :
    childSum "ns:p" ["ns:p-a", "ns:p-b"] [30, 40] = 70 ∧
    ((70:ℤ) = childSum "ns:p" ["ns:p-a", "ns:p-b"] [30, 40] ∧
     (30:ℤ) = 100 - 70 ∧
     (((70:ℤ) : ℚ) / ((100:ℤ) : ℚ) = ((70:ℤ) : ℚ) / ((100:ℤ) : ℚ)) ∧
     (0:ℤ) = childSum "ns:p" ([] : List String) ([] : List ℤ) ∧
     (100:ℤ) = 100 - 0 ∧
     (((0:ℤ) : ℚ) / ((100:ℤ) : ℚ) = ((0:ℤ) : ℚ) / ((100:ℤ) : ℚ))) :=
  ⟨by decide,
   c7_aggregate_row { retS := ["ns:p"], retF := [100], retI := [1], ok := true }
     { retS := ["ns:p-a", "ns:p-b"], retF := [30, 40], retI := [1, 1], ok := true }
     { retS := [], retF := [], retI := [], ok := true }
     (by decide) (by decide) (by decide) (by decide)
     { prKey := "ns:p", prDuration := 100, prConcurrency := 1, totalTRDuration := 70,
       trDelta := 30, trPercent := ((70:ℤ) : ℚ) / ((100:ℤ) : ℚ), maxTRConcurrency := 1,
       totalPodDuration := 0, podDelta := 100,
       podPercent := ((0:ℤ) : ℚ) / ((100:ℤ) : ℚ), maxPodConcurrency := 0 }
     (List.mem_cons_self _ _)⟩

/- ## Lemmas on the PipelineRun processing fold and the ranked emission -/

theorem parsePipelineRunList_eq (st : KindState) (files : List PRFileRead)
    (prFilter : String) :
    parsePipelineRunList st files prFilter =
      (rankedOut { prFold prFilter st (prFileItems files) with
          durations := List.insertionSort (fun a b => a ≤ b)
            (prFold prFilter st (prFileItems files)).durations },
       { prFold prFilter st (prFileItems files) with
          durations := List.insertionSort (fun a b => a ≤ b)
            (prFold prFilter st (prFileItems files)).durations }) := rfl

theorem prFold_eq_filter (prFilter : String) (st : KindState) (items : List PipelineRun) :
    prFold prFilter st items =
      (items.filter fun pr => !(ignorePipelineRun pr prFilter)).foldl processPipelineRun st := by
  induction items generalizing st with
  | nil => rfl
  | cons pr rest ih =>
    cases hig : ignorePipelineRun pr prFilter
    · simp [prFold, List.foldl_cons, List.filter_cons, hig] at ih ⊢
      exact ih (processPipelineRun st pr)
    · simp [prFold, List.foldl_cons, List.filter_cons, hig] at ih ⊢
      exact ih st

theorem foldPR_toDuration (el : List PipelineRun) (st : KindState)
    (hfresh : ∀ pr ∈ el, prKeyOf pr ∉ st.toDuration.map Prod.fst)
    (hnd : (el.map prKeyOf).Nodup) :
    (el.foldl processPipelineRun st).toDuration =
      st.toDuration ++ el.map (fun pr => (prKeyOf pr, prDurOf pr)) := by
  induction el generalizing st with
  | nil => simp
  | cons pr rest ih =>
    simp only [List.map_cons, List.nodup_cons] at hnd
    have hput : (processPipelineRun st pr).toDuration =
        st.toDuration ++ [(prKeyOf pr, prDurOf pr)] := by
      simp only [processPipelineRun]
      exact mapPut_fresh st.toDuration (prKeyOf pr) (prDurOf pr)
        (hfresh pr (List.mem_cons_self pr rest))
    have hfresh2 : ∀ pr2 ∈ rest, prKeyOf pr2 ∉
        (processPipelineRun st pr).toDuration.map Prod.fst := by
      intro pr2 hm
      rw [hput]
      simp only [List.map_append, List.mem_append, List.map_cons]
      rintro (h | h)
      · exact hfresh pr2 (List.mem_cons_of_mem pr hm) h
      · simp only [List.map_nil, List.mem_singleton] at h
        exact hnd.1 (h ▸ List.mem_map_of_mem prKeyOf hm)
    rw [List.foldl_cons, ih (processPipelineRun st pr) hfresh2 hnd.2, hput]
    simp

theorem foldPR_durations_nodup (el : List PipelineRun) (st : KindState)
    (h : st.durations.Nodup) : (el.foldl processPipelineRun st).durations.Nodup := by
  induction el generalizing st with
  | nil => exact h
  | cons pr rest ih =>
    rw [List.foldl_cons]
    refine ih (processPipelineRun st pr) ?_
    simp only [processPipelineRun]
    by_cases hmem : prDurOf pr ∈ st.durations
    · simpa [hmem] using h
    · simp [hmem, List.nodup_append, h]

theorem foldPR_durations_mem (el : List PipelineRun) (st : KindState) (v : ℤ) :
    v ∈ (el.foldl processPipelineRun st).durations ↔
      v ∈ st.durations ∨ v ∈ el.map prDurOf := by
  induction el generalizing st with
  | nil => simp
  | cons pr rest ih =>
    rw [List.foldl_cons, ih (processPipelineRun st pr)]
    have hstep : v ∈ (processPipelineRun st pr).durations ↔
        v ∈ st.durations ∨ v = prDurOf pr := by
      simp only [processPipelineRun]
      by_cases hmem : prDurOf pr ∈ st.durations
      · simp only [hmem, if_true]
        constructor
        · exact Or.inl
        · rintro (h | h)
          · exact h
          · exact h ▸ hmem
      · simp [hmem]
    rw [hstep]
    simp only [List.map_cons, List.mem_cons]
    tauto

theorem foldPR_startTimes_congr (el : List PipelineRun) (st st2 : KindState)
    (h1 : st2.startTimes = st.startTimes) (h2 : st2.endTimes = st.endTimes)
    (h3 : st2.toDuration = st.toDuration)
    (hmem : ∀ v, v ∈ st2.durations ↔ v ∈ st.durations) :
    (el.foldl processPipelineRun st2).startTimes = (el.foldl processPipelineRun st).startTimes ∧
    (el.foldl processPipelineRun st2).endTimes = (el.foldl processPipelineRun st).endTimes ∧
    (el.foldl processPipelineRun st2).toDuration = (el.foldl processPipelineRun st).toDuration ∧
    (∀ v, v ∈ (el.foldl processPipelineRun st2).durations ↔
        v ∈ (el.foldl processPipelineRun st).durations) := by
  induction el generalizing st st2 with
  | nil => exact ⟨h1, h2, h3, hmem⟩
  | cons pr rest ih =>
    rw [List.foldl_cons, List.foldl_cons]
    refine ih (processPipelineRun st pr) (processPipelineRun st2 pr) ?_ ?_ ?_ ?_
    · simp [processPipelineRun, h1]
    · simp [processPipelineRun, h2]
    · simp [processPipelineRun, h3]
    · intro v
      simp only [processPipelineRun]
      by_cases hm : prDurOf pr ∈ st.durations
      · have hm2 : prDurOf pr ∈ st2.durations := (hmem _).mpr hm
        simp [hm, hm2, hmem]
      · have hm2 : prDurOf pr ∉ st2.durations := fun hh => hm ((hmem _).mp hh)
        simp [hm, hm2, hmem]

theorem mem_emitRanked (m : List (String × ℤ)) (sd : List ℤ) (kv : String × ℤ) :
    kv ∈ emitRanked m sd ↔ kv ∈ m ∧ kv.2 ∈ sd := by
  induction sd with
  | nil => simp [emitRanked]
  | cons d rest ih =>
    simp only [emitRanked, List.mem_append, List.mem_filter, ih, List.mem_cons,
      decide_eq_true_eq]
    tauto

theorem filter_disjoint_perm {α : Type} (p q : α → Bool) (l : List α)
    (h : ∀ x ∈ l, ¬(p x = true ∧ q x = true)) :
    (l.filter p ++ l.filter q).Perm (l.filter fun x => p x || q x) := by
  induction l with
  | nil => simp
  | cons a l ih =>
    have hrest := fun x hx => h x (List.mem_cons_of_mem a hx)
    cases hpa : p a <;> cases hqa : q a
    · simpa [List.filter_cons, hpa, hqa] using ih hrest
    · simp only [List.filter_cons, hpa, hqa, Bool.false_or, if_false, if_true,
        Bool.false_eq_true]
      refine List.Perm.trans List.perm_middle ?_
      exact (ih hrest).cons a
    · simp only [List.filter_cons, hpa, hqa, Bool.true_or, if_false, if_true,
        Bool.false_eq_true, List.cons_append]
      exact (ih hrest).cons a
    · exact absurd ⟨hpa, hqa⟩ (h a (List.mem_cons_self a l))

theorem emitRanked_perm_filter (m : List (String × ℤ)) (sd : List ℤ) (hsd : sd.Nodup) :
    (emitRanked m sd).Perm (m.filter fun kv => kv.2 ∈ sd) := by
  induction sd with
  | nil => simp [emitRanked]
  | cons d rest ih =>
    simp only [List.nodup_cons] at hsd
    have step1 : (emitRanked m (d :: rest)).Perm
        ((m.filter fun kv => kv.2 = d) ++ m.filter fun kv => kv.2 ∈ rest) := by
      simp only [emitRanked]
      exact List.Perm.append_left _ (ih hsd.2)
    refine step1.trans ?_
    have step2 := filter_disjoint_perm (fun kv => kv.2 = d) (fun kv => kv.2 ∈ rest) m ?_
    · refine step2.trans ?_
      have heq : (m.filter fun kv => decide (kv.2 = d) || decide (kv.2 ∈ rest)) =
          m.filter fun kv => kv.2 ∈ d :: rest := by
        apply List.filter_congr
        intro kv hkv
        simp [List.mem_cons]
      rw [heq]
    · intro kv hkv
      rintro ⟨hd, hr⟩
      simp only [decide_eq_true_eq] at hd hr
      exact hsd.1 (hd ▸ hr)

theorem emitRanked_perm (m : List (String × ℤ)) (sd : List ℤ) (hsd : sd.Nodup)
    (hcover : ∀ kv ∈ m, kv.2 ∈ sd) : (emitRanked m sd).Perm m := by
  have h := emitRanked_perm_filter m sd hsd
  rwa [List.filter_eq_self.mpr (fun kv hkv => by simpa using hcover kv hkv)] at h

theorem pairwise_le_of_all_eq (l : List ℤ) (d : ℤ) (h : ∀ x ∈ l, x = d) :
    List.Pairwise (fun a b : ℤ => a ≤ b) l := by
  induction l with
  | nil => exact List.Pairwise.nil
  | cons x l ih =>
    refine List.Pairwise.cons ?_ (ih fun y hy => h y (List.mem_cons_of_mem x hy))
    intro y hy
    rw [h x (List.mem_cons_self x l), h y (List.mem_cons_of_mem x hy)]

theorem emitRanked_snd_sorted (m : List (String × ℤ)) (sd : List ℤ)
    (hsort : List.Sorted (fun a b : ℤ => a ≤ b) sd) :
    List.Sorted (fun a b : ℤ => a ≤ b) ((emitRanked m sd).map Prod.snd) := by
  induction sd with
  | nil => simp [emitRanked]
  | cons d rest ih =>
    rw [List.sorted_cons] at hsort
    simp only [emitRanked, List.map_append]
    rw [List.Sorted, List.pairwise_append]
    refine ⟨?_, ih hsort.2, ?_⟩
    · apply pairwise_le_of_all_eq _ d
      intro x hx
      obtain ⟨kv, hkv, rfl⟩ := List.mem_map.mp hx
      simpa using (List.mem_filter.mp hkv).2
    · intro a ha b hb
      obtain ⟨kva, hkva, rfl⟩ := List.mem_map.mp ha
      obtain ⟨kvb, hkvb, rfl⟩ := List.mem_map.mp hb
      have ha2 : kva.2 = d := by simpa using (List.mem_filter.mp hkva).2
      have hb2 : kvb.2 ∈ rest := ((mem_emitRanked m rest kvb).mp hkvb).2
      rw [ha2]
      exact hsort.1 kvb.2 hb2

theorem forall2_map_map {α β γ : Type} (R : β → γ → Prop) (f : α → β) (g : α → γ)
    (l : List α) (h : ∀ x ∈ l, R (f x) (g x)) : List.Forall₂ R (l.map f) (l.map g) := by
  induction l with
  | nil => exact List.Forall₂.nil
  | cons x l ih =>
    exact List.Forall₂.cons (h x (List.mem_cons_self x l))
      (ih fun y hy => h y (List.mem_cons_of_mem x hy))

/-- Claim C8: for a single invocation from a fresh process over entities
with pairwise-distinct eligible keys, the flat result is grouped by
duration: the duration column is sorted ascending (so equal values are
contiguous — one group per distinct observed value, group values strictly
ascending since keys are emitted once), the key column is a permutation of
the eligible keys (each eligible key exactly once, union equal to the
eligible set) and has no duplicates, and each key is listed under its own
recorded duration value. -/
theorem c8_ranked_grouped_output (files : List PRFileRead) (prFilter : String)
    (el : List PipelineRun) (res : ParseResult) (stFinal : KindState)
    (hel : el = (processPRFiles files).1.filter fun pr => !(ignorePipelineRun pr prFilter))
    (hres : res = (parsePipelineRunList KindState.init files prFilter).1)
    (hst : stFinal = (parsePipelineRunList KindState.init files prFilter).2)
    (hnd : (el.map prKeyOf).Nodup) :
    res.retS.Nodup ∧
    res.retS.Perm (el.map prKeyOf) ∧
    List.Forall₂ (fun k v => mapGet stFinal.toDuration k = some v) res.retS res.retF ∧
    List.Sorted (fun a b : ℤ => a ≤ b) res.retF := by
  subst hel hres hst
  rw [parsePipelineRunList_eq]
  have hfoldeq : prFold prFilter KindState.init (prFileItems files) =
      ((processPRFiles files).1.filter fun pr =>
        !(ignorePipelineRun pr prFilter)).foldl processPipelineRun KindState.init :=
    prFold_eq_filter prFilter KindState.init (prFileItems files)
  set el := (processPRFiles files).1.filter fun pr => !(ignorePipelineRun pr prFilter)
    with hel2
  set st2 := el.foldl processPipelineRun KindState.init with hst2
  have hToD : st2.toDuration = el.map (fun pr => (prKeyOf pr, prDurOf pr)) := by
    rw [hst2, foldPR_toDuration el KindState.init (by simp [KindState.init]) hnd]
    simp [KindState.init]
  have hkeys : st2.toDuration.map Prod.fst = el.map prKeyOf := by
    rw [hToD, List.map_map]
    rfl
  have hndk : (st2.toDuration.map Prod.fst).Nodup := by
    rw [hkeys]
    exact hnd
  have hNodupD : st2.durations.Nodup :=
    foldPR_durations_nodup el KindState.init (by simp [KindState.init])
  have hmemD : ∀ v, v ∈ st2.durations ↔ v ∈ el.map prDurOf := by
    intro v
    rw [hst2, foldPR_durations_mem]
    simp [KindState.init]
  set sd := List.insertionSort (fun a b : ℤ => a ≤ b) st2.durations with hsd2
  have hsdperm : sd.Perm st2.durations := List.perm_insertionSort _ _
  have hsdnd : sd.Nodup := hsdperm.nodup_iff.mpr hNodupD
  have hsdsort : List.Sorted (fun a b : ℤ => a ≤ b) sd :=
    List.sorted_insertionSort _ _
  have hcover : ∀ kv ∈ st2.toDuration, kv.2 ∈ sd := by
    intro kv hkv
    rw [hToD] at hkv
    obtain ⟨pr, hpr, rfl⟩ := List.mem_map.mp hkv
    rw [hsdperm.mem_iff, hmemD]
    exact List.mem_map_of_mem prDurOf hpr
  have hperm : (emitRanked st2.toDuration sd).Perm st2.toDuration :=
    emitRanked_perm st2.toDuration sd hsdnd hcover
  rw [hfoldeq] at *
  refine ⟨?_, ?_, ?_, ?_⟩
  · have : ((emitRanked st2.toDuration sd).map Prod.fst).Perm (el.map prKeyOf) := by
      rw [← hkeys]
      exact hperm.map Prod.fst
    exact (this.nodup_iff).mpr hnd
  · rw [← hkeys]
    exact hperm.map Prod.fst
  · apply forall2_map_map
    intro kv hkv
    have hkvm : kv ∈ st2.toDuration := ((mem_emitRanked _ _ kv).mp hkv).1
    exact mapGet_of_mem_nodup st2.toDuration kv.1 kv.2 hndk (by simpa using hkvm)
  · exact emitRanked_snd_sorted st2.toDuration sd hsdsort

/-- Witness for the grouped-output claim: two runs with durations 5 and 7
from a fresh process. -/
theorem c8_witness :
    (["ns:a", "ns:b"] : List String).Nodup ∧
    (["ns:a", "ns:b"] : List String).Perm ["ns:a", "ns:b"] ∧
    List.Forall₂ (fun k v => mapGet [("ns:a", (5:ℤ)), ("ns:b", 7)] k = some v)
      ["ns:a", "ns:b"] [(5:ℤ), 7] ∧
    List.Sorted (fun a b : ℤ => a ≤ b) [(5:ℤ), 7] :=
  c8_ranked_grouped_output
    [PRFileRead.decoded [⟨"PipelineRun", "ns", "a", some 0, some 5, true⟩,
      ⟨"PipelineRun", "ns", "b", some 0, some 7, true⟩]] ""
    ((processPRFiles [PRFileRead.decoded [⟨"PipelineRun", "ns", "a", some 0, some 5, true⟩,
      ⟨"PipelineRun", "ns", "b", some 0, some 7, true⟩]]).1.filter
        fun pr => !(ignorePipelineRun pr ""))
    (parsePipelineRunList KindState.init
      [PRFileRead.decoded [⟨"PipelineRun", "ns", "a", some 0, some 5, true⟩,
        ⟨"PipelineRun", "ns", "b", some 0, some 7, true⟩]] "").1
    (parsePipelineRunList KindState.init
      [PRFileRead.decoded [⟨"PipelineRun", "ns", "a", some 0, some 5, true⟩,
        ⟨"PipelineRun", "ns", "b", some 0, some 7, true⟩]] "").2
    rfl rfl rfl (by decide)

/- ## State accumulation across invocations -/

theorem prFileItems_append (f1 f2 : List PRFileRead) :
    prFileItems (f1 ++ f2) = prFileItems f1 ++ prFileItems f2 := by
  induction f1 with
  | nil => rfl
  | cons f rest ih => cases f <;> simp [prFileItems, ih]

theorem prFold_append (prFilter : String) (st : KindState) (l1 l2 : List PipelineRun) :
    prFold prFilter st (l1 ++ l2) = prFold prFilter (prFold prFilter st l1) l2 :=
  List.foldl_append _ _ l1 l2

/-- Claim C5 counterexample: invoking parsePipelineRunList a second time in
the same process returns the first invocation's key as well — the result is
not what a lone invocation over the second input returns. -/
theorem c5_counterexample :
    (parsePipelineRunList
        (parsePipelineRunList KindState.init
          [PRFileRead.decoded [⟨"PipelineRun", "ns", "a", some 0, some 5, true⟩]] "").2
        [PRFileRead.decoded [⟨"PipelineRun", "ns", "b", some 0, some 7, true⟩]] "").1.retS =
      ["ns:a", "ns:b"] ∧
    (parsePipelineRunList KindState.init
        [PRFileRead.decoded [⟨"PipelineRun", "ns", "b", some 0, some 7, true⟩]] "").1.retS =
      ["ns:b"] ∧
    (["ns:a", "ns:b"] : List String) ≠ ["ns:b"] :=
  ⟨by decide, by decide, by decide⟩

/-- Claim C5 amended: the per-kind lookup structures are process-wide, so a
second invocation of the same analysis function is not independent of the
first: it returns (result and state alike) exactly what a single invocation
over the first input followed by the second would return — the first
invocation's entities accumulate into the second invocation's output. -/
theorem c5_second_invocation_accumulates (files1 files2 : List PRFileRead)
    (prFilter : String) :
    parsePipelineRunList (parsePipelineRunList KindState.init files1 prFilter).2 files2
        prFilter =
      parsePipelineRunList KindState.init (files1 ++ files2) prFilter := by
  rw [parsePipelineRunList_eq, parsePipelineRunList_eq, parsePipelineRunList_eq,
    prFileItems_append, prFold_append]
  set st1 := prFold prFilter KindState.init (prFileItems files1) with hst1
  set stA : KindState := { st1 with
    durations := List.insertionSort (fun a b : ℤ => a ≤ b) st1.durations } with hstA
  have hd1nd : st1.durations.Nodup := by
    rw [hst1, prFold_eq_filter]
    exact foldPR_durations_nodup _ KindState.init (by simp [KindState.init])
  have hdAnd : stA.durations.Nodup :=
    (List.perm_insertionSort _ _).nodup_iff.mpr hd1nd
  have hcong := foldPR_startTimes_congr
    ((prFileItems files2).filter fun pr => !(ignorePipelineRun pr prFilter)) st1 stA
    rfl rfl rfl
    (fun v => (List.perm_insertionSort (fun a b : ℤ => a ≤ b) st1.durations).mem_iff)
  rw [prFold_eq_filter prFilter stA, prFold_eq_filter prFilter st1]
  set el2 := (prFileItems files2).filter fun pr => !(ignorePipelineRun pr prFilter)
    with hel2
  set stL := el2.foldl processPipelineRun stA with hstL
  set stR := el2.foldl processPipelineRun st1 with hstR
  obtain ⟨hS, hE, hT, hM⟩ := hcong
  have hLnd : stL.durations.Nodup := foldPR_durations_nodup el2 stA hdAnd
  have hRnd : stR.durations.Nodup := foldPR_durations_nodup el2 st1 hd1nd
  have hsorteq : List.insertionSort (fun a b : ℤ => a ≤ b) stL.durations =
      List.insertionSort (fun a b : ℤ => a ≤ b) stR.durations := by
    apply List.eq_of_perm_of_sorted ?_ (List.sorted_insertionSort _ _)
      (List.sorted_insertionSort _ _)
    refine (List.perm_insertionSort _ _).trans (List.Perm.trans ?_
      (List.perm_insertionSort _ _).symm)
    exact (List.perm_ext_iff_of_nodup hLnd hRnd).mpr hM
  have hstate : ({ stL with durations :=
        (List.insertionSort (fun a b : ℤ => a ≤ b) stL.durations) } : KindState) =
      { stR with durations :=
        (List.insertionSort (fun a b : ℤ => a ≤ b) stR.durations) } := by
    rw [hS, hE, hT, hsorteq]
  rw [hstate]

/- ## Lemmas on the container-window computation -/

theorem idxMapAux_notmem (names : List String) (n : String) (h : n ∉ names) :
    ∀ (m : List (String × ℕ)) (start : ℕ),
      mapGet (idxMapAux m names start) n = mapGet m n := by
  induction names with
  | nil => intro m start; rfl
  | cons a rest ih =>
    intro m start
    simp only [List.mem_cons] at h
    push_neg at h
    simp only [idxMapAux]
    rw [ih h.2 (mapPut m a start) (start + 1), mapGet_mapPut_ne m a n start h.1]

theorem idxMapAux_get (names : List String) (hnd : names.Nodup) :
    ∀ (m : List (String × ℕ)) (start : ℕ) (i : ℕ) (hi : i < names.length),
      mapGet (idxMapAux m names start) (names.get ⟨i, hi⟩) = some (start + i) := by
  induction names with
  | nil =>
    intro m start i hi
    simp at hi
  | cons a rest ih =>
    intro m start i hi
    simp only [List.nodup_cons] at hnd
    cases i with
    | zero =>
      simp only [List.get, idxMapAux]
      rw [idxMapAux_notmem rest a hnd.1 (mapPut m a start) (start + 1),
        mapGet_mapPut_self]
      simp
    | succ j =>
      simp only [List.get, idxMapAux]
      have hj : j < rest.length := by
        simpa using Nat.lt_of_succ_lt_succ hi
      rw [ih hnd.2 (mapPut m a start) (start + 1) j hj]
      congr 1
      omega

theorem idxMap_get (names : List String) (hnd : names.Nodup) (i : ℕ)
    (hi : i < names.length) : mapGet (idxMap names) (names.get ⟨i, hi⟩) = some i := by
  have h := idxMapAux_get names hnd [] 0 i hi
  simpa [idxMap] using h

theorem idxMap_notmem (names : List String) (n : String) (h : n ∉ names) :
    mapGet (idxMap names) n = none := by
  have h2 := idxMapAux_notmem names n h [] 0
  simpa [idxMap, mapGet] using h2

theorem containerKeyOf_inj (pod : Pod) (n1 n2 : String)
    (h : containerKeyOf pod n1 = containerKeyOf pod n2) : n1 = n2 := by
  unfold containerKeyOf at h
  have h2 := congrArg String.data h
  simp only [String.data_append, List.append_assoc] at h2
  have h3 := List.append_cancel_left h2
  have h4 := List.append_cancel_left h3
  have h5 := List.append_cancel_left h4
  have h6 := List.append_cancel_left h5
  exact String.ext h6

theorem foldCS_untouched (pod : Pod) (l : List ContainerStatus) (key : String)
    (h : ∀ cs ∈ l, containerKeyOf pod cs.name ≠ key) :
    ∀ st : KindState,
      mapGet (l.foldl (containerStep pod) st).startTimes key = mapGet st.startTimes key ∧
      mapGet (l.foldl (containerStep pod) st).endTimes key = mapGet st.endTimes key ∧
      mapGet (l.foldl (containerStep pod) st).toDuration key = mapGet st.toDuration key := by
  induction l with
  | nil => intro st; exact ⟨rfl, rfl, rfl⟩
  | cons c2 rest ih =>
    intro st
    have hrest := fun cs hm => h cs (List.mem_cons_of_mem c2 hm)
    have hkey := h c2 (List.mem_cons_self c2 rest)
    rw [List.foldl_cons]
    obtain ⟨ih1, ih2, ih3⟩ := ih hrest (containerStep pod st c2)
    rw [ih1, ih2, ih3]
    cases hterm : c2.terminated with
    | none => simp [containerStep, hterm]
    | some t =>
      simp only [containerStep, hterm]
      exact ⟨mapGet_mapPut_ne _ _ _ _ (fun hh => hkey hh.symm),
        mapGet_mapPut_ne _ _ _ _ (fun hh => hkey hh.symm),
        mapGet_mapPut_ne _ _ _ _ (fun hh => hkey hh.symm)⟩

theorem processContainers_record (st : KindState) (pod : Pod) (cs : ContainerStatus)
    (t : Terminated) (hcs : cs ∈ pod.containerStatuses) (ht : cs.terminated = some t)
    (hndStat : (pod.containerStatuses.map ContainerStatus.name).Nodup) :
    mapGet (processContainers st pod).startTimes (containerKeyOf pod cs.name) =
      some (containerStartOf pod cs t) ∧
    mapGet (processContainers st pod).endTimes (containerKeyOf pod cs.name) =
      some t.finishedAt ∧
    mapGet (processContainers st pod).toDuration (containerKeyOf pod cs.name) =
      some (t.finishedAt - containerStartOf pod cs t) := by
  unfold processContainers
  have aux : ∀ (l : List ContainerStatus), cs ∈ l →
      (l.map ContainerStatus.name).Nodup →
      ∀ st2 : KindState,
        mapGet ((l.foldl (containerStep pod) st2).startTimes)
          (containerKeyOf pod cs.name) = some (containerStartOf pod cs t) ∧
        mapGet ((l.foldl (containerStep pod) st2).endTimes)
          (containerKeyOf pod cs.name) = some t.finishedAt ∧
        mapGet ((l.foldl (containerStep pod) st2).toDuration)
          (containerKeyOf pod cs.name) = some (t.finishedAt - containerStartOf pod cs t) := by
    intro l
    induction l with
    | nil => intro hmem; cases hmem
    | cons c2 rest ih =>
      intro hmem hnd st2
      simp only [List.map_cons, List.nodup_cons] at hnd
      rcases List.mem_cons.mp hmem with heq | hmem2
      · subst heq
        rw [List.foldl_cons]
        have hdiff : ∀ c3 ∈ rest, containerKeyOf pod c3.name ≠ containerKeyOf pod cs.name := by
          intro c3 hm3 hkey
          have : c3.name = cs.name := containerKeyOf_inj pod c3.name cs.name hkey
          exact hnd.1 (this ▸ List.mem_map_of_mem ContainerStatus.name hm3)
        obtain ⟨hu1, hu2, hu3⟩ :=
          foldCS_untouched pod rest (containerKeyOf pod cs.name) hdiff
            (containerStep pod st2 cs)
        rw [hu1, hu2, hu3]
        simp only [containerStep, ht]
        exact ⟨mapGet_mapPut_self _ _ _, mapGet_mapPut_self _ _ _, mapGet_mapPut_self _ _ _⟩
      · rw [List.foldl_cons]
        exact ih hmem2 hnd.2 (containerStep pod st2 c2)
  exact aux pod.containerStatuses hcs hndStat st

theorem containerStartOf_spec (pod : Pod) (cs : ContainerStatus) (t : Terminated)
    (hndSpec : (pod.specContainers.map SpecContainer.name).Nodup)
    (hndStat : (pod.containerStatuses.map ContainerStatus.name).Nodup) :
    ∀ (i : ℕ) (hi : i < pod.specContainers.length),
      (pod.specContainers.get ⟨i, hi⟩).name = cs.name →
      ((i = 0 → containerStartOf pod cs t = t.startedAt) ∧
       (∀ (j : ℕ) (hj : j < pod.specContainers.length), i = j + 1 →
          (∀ cs2 ∈ pod.containerStatuses,
            cs2.name = (pod.specContainers.get ⟨j, hj⟩).name →
            containerStartOf pod cs t =
              (match cs2.terminated with
               | some t2 => t2.finishedAt
               | none => t.startedAt)) ∧
          ((∀ cs2 ∈ pod.containerStatuses,
              cs2.name ≠ (pod.specContainers.get ⟨j, hj⟩).name) →
            containerStartOf pod cs t =
              (match (pod.containerStatuses.getD 0 ⟨"", none⟩).terminated with
               | some t2 => t2.finishedAt
               | none => t.startedAt)))) := by
  intro i hi hname
  have hi2 : i < (pod.specContainers.map SpecContainer.name).length := by simpa using hi
  have hspecIdx : mapGet (idxMap (pod.specContainers.map SpecContainer.name)) cs.name =
      some i := by
    have h := idxMap_get (pod.specContainers.map SpecContainer.name) hndSpec i hi2
    rw [List.get_eq_getElem, List.getElem_map] at h
    rw [← hname, List.get_eq_getElem]
    exact h
  constructor
  · intro h0
    subst h0
    simp [containerStartOf, hspecIdx]
  · intro j hj hij
    subst hij
    have hgetD : pod.specContainers.getD (j + 1 - 1) ⟨""⟩ = pod.specContainers.get ⟨j, hj⟩ := by
      have hj1 : j + 1 - 1 = j := by omega
      rw [hj1, List.getD_eq_getElem pod.specContainers ⟨""⟩ hj]
      exact rfl
    have hne : j + 1 ≠ 0 := by omega
    constructor
    · intro cs2 hcs2 hcs2name
      obtain ⟨⟨k, hk⟩, hgetk⟩ := List.mem_iff_get.mp hcs2
      have hk2 : k < (pod.containerStatuses.map ContainerStatus.name).length := by
        simpa using hk
      have hmapget : (pod.containerStatuses.map ContainerStatus.name).get ⟨k, hk2⟩ =
          cs2.name := by
        rw [List.get_eq_getElem, List.getElem_map]
        exact congrArg ContainerStatus.name hgetk
      have hstatIdx : mapGet (idxMap (pod.containerStatuses.map ContainerStatus.name))
          ((pod.specContainers.get ⟨j, hj⟩).name) = some k := by
        have h := idxMap_get (pod.containerStatuses.map ContainerStatus.name) hndStat k hk2
        rw [hmapget, hcs2name] at h
        exact h
      have hgetD2 : pod.containerStatuses.getD k ⟨"", none⟩ = cs2 := by
        rw [List.getD_eq_getElem pod.containerStatuses ⟨"", none⟩ hk]
        exact hgetk
      simp only [containerStartOf, hspecIdx, Option.getD_some]
      simp only [hne, if_true, ne_eq, not_false_iff]
      rw [hgetD, hstatIdx]
      simp only [Option.getD_some]
      rw [hgetD2]
    · intro hnone
      have hnotmem : (pod.specContainers.get ⟨j, hj⟩).name ∉
          pod.containerStatuses.map ContainerStatus.name := by
        intro hmem
        obtain ⟨cs2, hcs2, hname2⟩ := List.mem_map.mp hmem
        exact hnone cs2 hcs2 hname2
      have hstatNone : mapGet (idxMap (pod.containerStatuses.map ContainerStatus.name))
          ((pod.specContainers.get ⟨j, hj⟩).name) = none :=
        idxMap_notmem _ _ hnotmem
      simp only [containerStartOf, hspecIdx, Option.getD_some]
      simp only [hne, if_true, ne_eq, not_false_iff]
      rw [hgetD, hstatNone]
      simp only [Option.getD_none]

/-- Claim C4 counterexample: in a pod with spec order [init, app] where the
init container has no terminated status and app terminates with its own
StartedAt 8, the recorded window start of app is 8 — its own recorded
start — although app is not the first container in spec order (its spec
index is 1), contradicting the claim that the window start equals the own
startedAt only for the first container and equals the predecessor's
FinishedAt for every subsequent one. -/
theorem c4_counterexample :
    mapGet (processContainers KindState.init
        ⟨"Pod", "ns", "pod", ["tekton.dev/pipelineRun"], some 1, PodPhase.succeeded,
          [⟨"init"⟩, ⟨"app"⟩],
          [⟨"init", none⟩, ⟨"app", some ⟨8, 12⟩⟩]⟩).startTimes "ns:pod-app" = some 8 ∧
    (⟨"app", some ⟨8, 12⟩⟩ : ContainerStatus).terminated = some ⟨8, 12⟩ ∧
    mapGet (idxMap (([⟨"init"⟩, ⟨"app"⟩] : List SpecContainer).map SpecContainer.name))
      "app" = some 1 := by
  decide

/-- Claim C4 amended: for every container status with a terminated state
(in a pod whose spec and status container names are duplicate-free), the
recorded window is (containerStartOf, own FinishedAt) with duration their
difference, and containerStartOf is: the container's own recorded StartedAt
when the container is first in spec-declared order; for a subsequent
container whose spec-order predecessor has a status entry, the
predecessor's FinishedAt when that status is terminated and the container's
own StartedAt when it is not (the case the original claim's only-if
direction misses); and for a subsequent container whose predecessor has no
status entry at all, the zero-value index lookup falls back to the first
declared container status — its FinishedAt when that status is terminated,
the container's own StartedAt otherwise. -/
theorem c4_container_window_start (st : KindState) (pod : Pod) (cs : ContainerStatus)
    (t : Terminated) (hcs : cs ∈ pod.containerStatuses) (ht : cs.terminated = some t)
    (hndSpec : (pod.specContainers.map SpecContainer.name).Nodup)
    (hndStat : (pod.containerStatuses.map ContainerStatus.name).Nodup) :
    (mapGet (processContainers st pod).startTimes (containerKeyOf pod cs.name) =
        some (containerStartOf pod cs t) ∧
     mapGet (processContainers st pod).endTimes (containerKeyOf pod cs.name) =
        some t.finishedAt ∧
     mapGet (processContainers st pod).toDuration (containerKeyOf pod cs.name) =
        some (t.finishedAt - containerStartOf pod cs t)) ∧
    (∀ (i : ℕ) (hi : i < pod.specContainers.length),
      (pod.specContainers.get ⟨i, hi⟩).name = cs.name →
      ((i = 0 → containerStartOf pod cs t = t.startedAt) ∧
       (∀ (j : ℕ) (hj : j < pod.specContainers.length), i = j + 1 →
          (∀ cs2 ∈ pod.containerStatuses,
            cs2.name = (pod.specContainers.get ⟨j, hj⟩).name →
            containerStartOf pod cs t =
              (match cs2.terminated with
               | some t2 => t2.finishedAt
               | none => t.startedAt)) ∧
          ((∀ cs2 ∈ pod.containerStatuses,
              cs2.name ≠ (pod.specContainers.get ⟨j, hj⟩).name) →
            containerStartOf pod cs t =
              (match (pod.containerStatuses.getD 0 ⟨"", none⟩).terminated with
               | some t2 => t2.finishedAt
               | none => t.startedAt))))) :=
  ⟨processContainers_record st pod cs t hcs ht hndStat,
   containerStartOf_spec pod cs t hndSpec hndStat⟩

/-- Witness for the amended container-window claim, at the specification's
example — spec order [init, app], init terminated at 5, app terminated at
12 with its own StartedAt 6: app's window starts at 5 and its duration is
7 — and at the missing-predecessor-status fallback: spec order [a, b] with
a status only for b (started 8, finished 12): b's window start is the first
declared status's FinishedAt, 12. -/
theorem c4_witness :
    mapGet (processContainers KindState.init
        ⟨"Pod", "ns", "pod", ["tekton.dev/pipelineRun"], some 1, PodPhase.succeeded,
          [⟨"init"⟩, ⟨"app"⟩],
          [⟨"init", some ⟨0, 5⟩⟩, ⟨"app", some ⟨6, 12⟩⟩]⟩).toDuration "ns:pod-app" =
      some (12 - containerStartOf
        ⟨"Pod", "ns", "pod", ["tekton.dev/pipelineRun"], some 1, PodPhase.succeeded,
          [⟨"init"⟩, ⟨"app"⟩],
          [⟨"init", some ⟨0, 5⟩⟩, ⟨"app", some ⟨6, 12⟩⟩]⟩ ⟨"app", some ⟨6, 12⟩⟩ ⟨6, 12⟩) ∧
    containerStartOf
        ⟨"Pod", "ns", "pod", ["tekton.dev/pipelineRun"], some 1, PodPhase.succeeded,
          [⟨"init"⟩, ⟨"app"⟩],
          [⟨"init", some ⟨0, 5⟩⟩, ⟨"app", some ⟨6, 12⟩⟩]⟩ ⟨"app", some ⟨6, 12⟩⟩ ⟨6, 12⟩ = 5 ∧
    (12 : ℤ) - 5 = 7 ∧
    containerStartOf
        ⟨"Pod", "ns", "pod", ["tekton.dev/pipelineRun"], some 1, PodPhase.succeeded,
          [⟨"a"⟩, ⟨"b"⟩], [⟨"b", some ⟨8, 12⟩⟩]⟩ ⟨"b", some ⟨8, 12⟩⟩ ⟨8, 12⟩ = 12 := by
  have h := c4_container_window_start KindState.init
    ⟨"Pod", "ns", "pod", ["tekton.dev/pipelineRun"], some 1, PodPhase.succeeded,
      [⟨"init"⟩, ⟨"app"⟩], [⟨"init", some ⟨0, 5⟩⟩, ⟨"app", some ⟨6, 12⟩⟩]⟩
    ⟨"app", some ⟨6, 12⟩⟩ ⟨6, 12⟩ (by decide) rfl (by decide) (by decide)
  have hP := c4_container_window_start KindState.init
    ⟨"Pod", "ns", "pod", ["tekton.dev/pipelineRun"], some 1, PodPhase.succeeded,
      [⟨"a"⟩, ⟨"b"⟩], [⟨"b", some ⟨8, 12⟩⟩]⟩
    ⟨"b", some ⟨8, 12⟩⟩ ⟨8, 12⟩ (by decide) rfl (by decide) (by decide)
  refine ⟨h.1.2.2, ?_, by decide, ?_⟩
  · have h2 := ((h.2 1 (by decide) rfl).2 0 (by decide) rfl).1 ⟨"init", some ⟨0, 5⟩⟩
      (by decide) rfl
    exact h2
  · have h3 := ((hP.2 1 (by decide) rfl).2 0 (by decide) rfl).2 (by decide)
    exact h3

end Tapa
